import Mathlib

/-!
Verification of the recurrence-hike engine in
`src/Subscription_Recovery/Subscription_Recovery.py`.

The engine is `find_subscription_leeches` (lines 12-21):

    df = pd.read_csv(csv_file)
    df['date'] = pd.to_datetime(df['date'])
    df = df.sort_values(by=['merchant', 'date'])
    recurring = df[df.duplicated('merchant', keep=False)].copy()
    recurring['price_change'] = recurring.groupby('merchant')['amount'].diff()
    return recurring[recurring['price_change'] > 0]

wrapped by the tool `analyze_transactions` (lines 24-33):

    try:
        leeches = find_subscription_leeches(csv_path)
        if leeches.empty:
            return "No price hikes found."
        return leeches.to_json(orient='records')
    except Exception as e:
        return f"Error: \x7bstr(e)\x7d"

The embedding works on the table produced by `pd.read_csv`: a list of
column names and a list of rows of raw text cells.  The value-level
parsers used by the pandas library (`pd.to_datetime` for the `date`
column, `read_csv`'s numeric coercion for the `amount` column) are taken
as parameters `pdate pamount : Cell → Option Int`; every theorem is
universally quantified over them, and concrete witnesses instantiate
them with small explicit parsers.

Python exceptions are modelled as the `Except Err` monad: `Err.keyError`
models the `KeyError` raised when a column is missing (at line 14 for
`date`, line 15 for `merchant`, line 19 for `amount` — the column
selection raises even when the recurring frame is empty), and
`Err.parseError` models the exception raised when a `date` cell cannot
be parsed (line 14, over the whole column, before any filtering) or
when `.diff()` subtracts non-numeric amounts at line 19.  The `amount`
failure is conditional: a non-numeric cell anywhere in the column makes
`read_csv` keep the whole column as text (object dtype), and the
element-wise subtraction of `.diff()` then raises — but only when the
`duplicated(keep=False)` frame is non-empty, because every group of
that frame has at least two rows and so at least one subtraction runs.
When no merchant recurs, the recurring frame is empty, `.diff()`
subtracts nothing, and the run succeeds with an empty result no matter
what the `amount` cells hold; the embedding mirrors this by testing
`rawRecurs` before coercing the amount column and by reading the
amounts leniently (`amountsOf`) in that success path, where no record
can reach the output anyway.  The checks are performed in the source's
program order.

`sort_values(by=['merchant', 'date'])` with several keys is pandas'
stable lexicographic sort.  A stable sort by the key (merchant, date)
of a list whose records carry pairwise distinct original positions
`idx` coincides with any sort by the strict total key
(merchant, date, idx); the embedding therefore sorts by the relation
`rle`, the lexicographic order on (merchant, date, idx).

pandas floats are modelled by `PFloat`: either `nan` (the float NaN
that `groupby(...).diff()` assigns to the first row of every group) or
an actual number.  The hike filter `price_change > 0` is the numeric
comparison `PFloat.gtZero`, with `NaN > 0` evaluating to `false`, as in
pandas.
-/

/-- A raw cell of the table read from the CSV. -/
abbrev Cell := String

/-- The table produced by `pd.read_csv`: column names and rows of raw
cells (each row lists one cell per column, in column order). -/
structure Frame where
  cols : List String
  rows : List (List Cell)
deriving DecidableEq

/-- A pandas float64 cell: NaN or a numeric value.  `price_change` is a
column of this type; `groupby(...).diff()` writes `nan` into the first
row of every merchant group. -/
inductive PFloat where
  | nan
  | num (v : Int)
deriving DecidableEq

/-- The comparison `x > 0` on a pandas float: `NaN > 0` is `False`. -/
def PFloat.gtZero : PFloat → Bool
  | .nan => false
  | .num v => decide (0 < v)

/-- The Python exceptions that can escape `find_subscription_leeches`:
`KeyError` for a missing column, and the exception raised when a `date`
or `amount` cell cannot be coerced (the exact library message text is
irrelevant to the claims; only the `Error: ` + `str(e)` shape that
`analyze_transactions` produces from it is). -/
inductive Err where
  | keyError (col : String)
  | parseError (cell : Cell)
deriving DecidableEq

/-- Python's `str(e)`: `str(KeyError('amount'))` is `'amount'` with
quotes; the parse-failure message carries the offending cell. -/
def Err.message : Err → String
  | .keyError c => "'" ++ c ++ "'"
  | .parseError c => "could not parse value: " ++ c

/-- One validated transaction record: the raw input cells of its row,
its original input position, the parsed date, the merchant text and the
parsed amount. -/
structure Rec where
  raw : List Cell
  idx : Nat
  date : Int
  merchant : String
  amount : Int
deriving DecidableEq

/-- Cell access within a row by column position (rows produced by
`read_csv` are rectangular, so the default is never hit on them). -/
def getCell (r : List Cell) (i : Nat) : Cell := r.getD i ""

/-- Position of a column name in the header, as pandas column lookup:
`none` models the `KeyError` raised on a missing column. -/
def colIdx (cols : List String) (c : String) : Option Nat :=
  match cols with
  | [] => none
  | c' :: rest => if c' = c then some 0 else (colIdx rest c).map (· + 1)

/-- Column-wide coercion (`pd.to_datetime` over the `date` column,
numeric coercion of the `amount` column): the first unparseable cell
aborts the whole call, no row-level recovery. -/
def parseAll (p : Cell → Option Int) : List Cell → Except Err (List Int)
  | [] => .ok []
  | c :: rest =>
    match p c with
    | none => .error (.parseError c)
    | some v =>
      match parseAll p rest with
      | .error e => .error e
      | .ok vs => .ok (v :: vs)

/-- Assembles the validated records from the raw rows, the parsed date
column and the parsed amount column, numbering rows by original input
position starting at `i`. -/
def mkRecs (mi : Nat) : List (List Cell) → List Int → List Int → Nat → List Rec
  | r :: rs, d :: ds, a :: amts, i =>
    ⟨r, i, d, getCell r mi, a⟩ :: mkRecs mi rs ds amts (i + 1)
  | _, _, _, _ => []

/-- Whether some merchant cell value occurs in at least two rows: this
is exactly when `df.duplicated('merchant', keep=False)` selects a
non-empty recurring frame — the only case in which `.diff()` at line 19
performs a subtraction and can raise on a non-numeric amount column.
The test reads only the merchant column, as `duplicated` does. -/
def rawRecurs (mi : Nat) (rows : List (List Cell)) : Bool :=
  rows.any (fun r => 2 ≤ rows.countP (fun s => decide (getCell s mi = getCell r mi)))

/-- Lenient reading of the amount column, used only on the path where no
merchant recurs: `read_csv` keeps a column with a non-numeric cell as
text, and since the recurring frame is then empty no amount value can
reach the output, so unparseable cells are read as 0 harmlessly. -/
def amountsOf (pamount : Cell → Option Int) (ai : Nat) (rows : List (List Cell)) : List Int :=
  rows.map (fun r => (pamount (getCell r ai)).getD 0)

/-- Ingestion and validation, in the source's program order: `date`
column lookup and `pd.to_datetime` (line 14, over the whole column),
`merchant` column lookup (first needed by `sort_values` at line 15),
`amount` column lookup (the selection at line 19, raising also on an
empty recurring frame), and then the numeric coercion of the amount
column — which only happens, and only fails, when some merchant recurs,
because `.diff()` subtracts nothing on an empty recurring frame.
Returns the positions of the `date` and `amount` columns together with
the validated records. -/
def validated (pdate pamount : Cell → Option Int) (f : Frame) :
    Except Err (Nat × Nat × List Rec) :=
  match colIdx f.cols "date" with
  | none => .error (.keyError "date")
  | some di =>
    match parseAll pdate (f.rows.map (fun r => getCell r di)) with
    | .error e => .error e
    | .ok dates =>
      match colIdx f.cols "merchant" with
      | none => .error (.keyError "merchant")
      | some mi =>
        match colIdx f.cols "amount" with
        | none => .error (.keyError "amount")
        | some ai =>
          match rawRecurs mi f.rows with
          | true =>
            match parseAll pamount (f.rows.map (fun r => getCell r ai)) with
            | .error e => .error e
            | .ok amounts => .ok (di, ai, mkRecs mi f.rows dates amounts 0)
          | false => .ok (di, ai, mkRecs mi f.rows dates (amountsOf pamount ai f.rows) 0)

/-- Lexicographic comparison of character lists by code point, the
order Python (and hence pandas) uses on strings. -/
def listLtb : List Char → List Char → Bool
  | [], [] => false
  | [], _ :: _ => true
  | _ :: _, [] => false
  | a :: as1, b :: bs =>
    decide (a.toNat < b.toNat) || (decide (a.toNat = b.toNat) && listLtb as1 bs)

/-- Strict lexicographic order on strings by code point. -/
def strLt (a b : String) : Prop := listLtb a.data b.data = true

instance strLt.decidable : DecidableRel strLt := fun a b => by
  unfold strLt; infer_instance

/-- The sort key of `df.sort_values(by=['merchant', 'date'])`: the
lexicographic order on (merchant, date, original position); the third
component realises the stability of pandas' multi-key lexsort. -/
def rle (a b : Rec) : Prop :=
  strLt a.merchant b.merchant ∨
    (a.merchant = b.merchant ∧
      (a.date < b.date ∨ (a.date = b.date ∧ a.idx ≤ b.idx)))

instance rle.decidableRel : DecidableRel rle := fun a b => by
  unfold rle; infer_instance

/-- Line 15: `df = df.sort_values(by=['merchant', 'date'])`. -/
def sortedOf (l : List Rec) : List Rec := List.insertionSort rle l

/-- Line 17: `df[df.duplicated('merchant', keep=False)]` keeps exactly
the rows whose merchant occurs at least twice in the table. -/
def recurringOf (l : List Rec) : List Rec :=
  l.filter (fun r => 2 ≤ l.countP (fun s => decide (s.merchant = r.merchant)))

/-- All records of one merchant, in list order (a merchant partition
when applied to a sorted list). -/
def partitionOf (l : List Rec) (m : String) : List Rec :=
  l.filter (fun s => decide (s.merchant = m))

/-- The value `groupby('merchant')['amount'].diff()` assigns to a row
whose preceding rows (in frame order) are `pre`: the difference to the
last earlier row of the same merchant, NaN when there is none. -/
def pcDelta (pre : List Rec) (r : Rec) : PFloat :=
  match (partitionOf pre r.merchant).getLast? with
  | none => .nan
  | some p => .num (r.amount - p.amount)

/-- Walks the frame accumulating the rows already seen and pairs every
row with its `price_change` value. -/
def withPCAux : List Rec → List Rec → List (Rec × PFloat)
  | _, [] => []
  | seen, r :: rest => (r, pcDelta seen r) :: withPCAux (seen ++ [r]) rest

/-- Line 19: `recurring['price_change'] = recurring.groupby('merchant')['amount'].diff()`. -/
def withPC (l : List Rec) : List (Rec × PFloat) := withPCAux [] l

/-- Line 21: `recurring[recurring['price_change'] > 0]`. -/
def hikes (l : List Rec) : List (Rec × PFloat) :=
  (withPC l).filter (fun x => x.2.gtZero)

/-- The pure pipeline of lines 15-21 on validated records. -/
def engine (l : List Rec) : List (Rec × PFloat) :=
  hikes (recurringOf (sortedOf l))

/-- Lines 12-21, `find_subscription_leeches`: validation followed by the
sort/duplicate/diff/filter pipeline.  The result keeps the `date` and
`amount` column positions so that the returned frame (all original
columns plus `price_change`) can be serialized. -/
def find_subscription_leeches (pdate pamount : Cell → Option Int) (f : Frame) :
    Except Err (Nat × Nat × List (Rec × PFloat)) :=
  match validated pdate pamount f with
  | .error e => .error e
  | .ok (di, ai, rows) => .ok (di, ai, engine rows)

/-- The sorted validated record sequence of an input (empty when
validation fails); the merchant partitions of the specification are the
`partitionOf` slices of this list. -/
def sortedInput (pdate pamount : Cell → Option Int) (f : Frame) : List Rec :=
  match validated pdate pamount f with
  | .ok (_, _, rows) => sortedOf rows
  | .error _ => []

/-- A JSON value as emitted by `DataFrame.to_json`: text, an integer
(parsed dates are serialized as epoch timestamps, amounts as numbers)
or a float (`price_change`; NaN would serialize as `null`, but no NaN
survives the hike filter). -/
inductive JVal where
  | str (s : String)
  | int (n : Int)
  | float (p : PFloat)
deriving DecidableEq

/-- The serialized cells of one output row, column by column: the
parsed date at the `date` column, the numeric amount at the `amount`
column, the raw text elsewhere; `j` counts the current column. -/
def cellsOut (di ai : Nat) (date amount : Int) : Nat → List Cell → List JVal
  | _, [] => []
  | j, c :: rest =>
    (if j = di then JVal.int date else if j = ai then JVal.int amount else JVal.str c) ::
      cellsOut di ai date amount (j + 1) rest

/-- All serialized cells of one output row: the input columns followed
by the appended `price_change` value. -/
def outCells (di ai : Nat) (x : Rec × PFloat) : List JVal :=
  cellsOut di ai x.1.date x.1.amount 0 x.1.raw ++ [JVal.float x.2]

/-- Line 31, `to_json(orient='records')` at the record level: one
field-labelled record per output row, the field names being the input
columns plus `price_change`. -/
def toRecords (cols : List String) (di ai : Nat) (out : List (Rec × PFloat)) :
    List (List (String × JVal)) :=
  out.map (fun x => (cols ++ ["price_change"]).zip (outCells di ai x))

/-- Text of one JSON value. -/
def JVal.render : JVal → String
  | .str s => "\"" ++ s ++ "\""
  | .int n => toString n
  | .float .nan => "null"
  | .float (.num n) => toString n

/-- Comma-separated concatenation. -/
def joinComma : List String → String
  | [] => ""
  | [s] => s
  | s :: rest => s ++ "," ++ joinComma rest

/-- Text of the fields of one JSON record. -/
def renderFields (r : List (String × JVal)) : String :=
  joinComma (r.map (fun p => "\"" ++ p.1 ++ "\":" ++ p.2.render))

/-- Text of one JSON record. -/
def renderRecord (r : List (String × JVal)) : String :=
  "\x7b" ++ renderFields r ++ "\x7d"

/-- Text of the JSON array of records. -/
def jsonString (rs : List (List (String × JVal))) : String :=
  "[" ++ joinComma (rs.map renderRecord) ++ "]"

/-- Lines 24-33, the tool `analyze_transactions`: runs the engine under
`try`, turns any exception into the text `Error: ` + `str(e)`, reports
`No price hikes found.` on an empty result and the JSON array of
records otherwise. -/
def analyze_transactions (pdate pamount : Cell → Option Int) (f : Frame) : String :=
  match find_subscription_leeches pdate pamount f with
  | .error e => "Error: " ++ e.message
  | .ok (di, ai, out) =>
    if out.isEmpty then "No price hikes found."
    else jsonString (toRecords f.cols di ai out)

/-! ### Order properties of the sort key -/

theorem Char.eq_of_toNat_eq {a b : Char} (h : a.toNat = b.toNat) : a = b :=
  Char.ext (UInt32.ext h)

theorem listLtb_trans :
    ∀ (x y z : List Char), listLtb x y = true → listLtb y z = true → listLtb x z = true
  | [], [], _, h1, _ => by simp [listLtb] at h1
  | [], _ :: _, [], _, h2 => by simp [listLtb] at h2
  | [], _ :: _, _ :: _, _, _ => rfl
  | _ :: _, [], _, h1, _ => by simp [listLtb] at h1
  | _ :: _, _ :: _, [], _, h2 => by simp [listLtb] at h2
  | a :: as1, b :: bs, c :: cs, h1, h2 => by
    simp only [listLtb, Bool.or_eq_true, Bool.and_eq_true, decide_eq_true_eq] at h1 h2 ⊢
    rcases h1 with h1 | ⟨h1e, h1r⟩ <;> rcases h2 with h2 | ⟨h2e, h2r⟩
    · exact Or.inl (Nat.lt_trans h1 h2)
    · exact Or.inl (h2e ▸ h1)
    · exact Or.inl (h1e ▸ h2)
    · exact Or.inr ⟨h1e.trans h2e, listLtb_trans as1 bs cs h1r h2r⟩

theorem listLtb_eq_of_not :
    ∀ (x y : List Char), listLtb x y = false → listLtb y x = false → x = y
  | [], [], _, _ => rfl
  | [], _ :: _, h1, _ => by simp [listLtb] at h1
  | _ :: _, [], _, h2 => by simp [listLtb] at h2
  | a :: as1, b :: bs, h1, h2 => by
    simp only [listLtb, Bool.or_eq_false_iff, Bool.and_eq_false_iff, decide_eq_false_iff_not,
      decide_eq_true_eq] at h1 h2
    have hab : a.toNat = b.toNat := by omega
    rcases h1.2 with h | h
    · exact absurd hab h
    · rcases h2.2 with h' | h'
      · exact absurd hab.symm h'
      · rw [Char.eq_of_toNat_eq hab, listLtb_eq_of_not as1 bs h h']

theorem strLt_trans {x y z : String} (h1 : strLt x y) (h2 : strLt y z) : strLt x z :=
  listLtb_trans x.data y.data z.data h1 h2

theorem strLt_eq_of_not {x y : String} (h1 : ¬strLt x y) (h2 : ¬strLt y x) : x = y :=
  String.ext (listLtb_eq_of_not x.data y.data (Bool.eq_false_iff.mpr h1) (Bool.eq_false_iff.mpr h2))

theorem listLtb_irrefl : ∀ (x : List Char), listLtb x x = false
  | [] => rfl
  | a :: as1 => by simp [listLtb, listLtb_irrefl as1]

theorem strLt_irrefl (x : String) : ¬strLt x x := by
  rw [strLt, listLtb_irrefl x.data]
  simp

instance rle.isTrans : IsTrans Rec rle where
  trans a b c h1 h2 := by
    rcases h1 with h1 | ⟨h1e, h1r⟩ <;> rcases h2 with h2 | ⟨h2e, h2r⟩
    · exact Or.inl (strLt_trans h1 h2)
    · exact Or.inl (h2e ▸ h1)
    · exact Or.inl (h1e ▸ h2)
    · refine Or.inr ⟨h1e.trans h2e, ?_⟩
      rcases h1r with h1r | ⟨h1d, h1i⟩ <;> rcases h2r with h2r | ⟨h2d, h2i⟩
      · exact Or.inl (h1r.trans h2r)
      · exact Or.inl (h2d ▸ h1r)
      · exact Or.inl (h1d ▸ h2r)
      · exact Or.inr ⟨h1d.trans h2d, h1i.trans h2i⟩

instance rle.isTotal : IsTotal Rec rle where
  total a b := by
    by_cases hm : strLt a.merchant b.merchant
    · exact Or.inl (Or.inl hm)
    · by_cases hm' : strLt b.merchant a.merchant
      · exact Or.inr (Or.inl hm')
      · have he : a.merchant = b.merchant := strLt_eq_of_not hm hm'
        rcases Int.lt_trichotomy a.date b.date with hd | hd | hd
        · exact Or.inl (Or.inr ⟨he, Or.inl hd⟩)
        · rcases Nat.le_total a.idx b.idx with hi | hi
          · exact Or.inl (Or.inr ⟨he, Or.inr ⟨hd, hi⟩⟩)
          · exact Or.inr (Or.inr ⟨he.symm, Or.inr ⟨hd.symm, hi⟩⟩)
        · exact Or.inr (Or.inr ⟨he.symm, Or.inl hd⟩)

/-! ### Structural lemmas about the pipeline stages -/

theorem withPCAux_map_fst : ∀ (seen l : List Rec), (withPCAux seen l).map Prod.fst = l
  | _, [] => rfl
  | seen, r :: rest => by
    simp [withPCAux, withPCAux_map_fst (seen ++ [r]) rest]

theorem withPC_map_fst (l : List Rec) : (withPC l).map Prod.fst = l :=
  withPCAux_map_fst [] l

theorem mem_withPCAux {x : Rec × PFloat} (l : List Rec) :
    ∀ (seen : List Rec), x ∈ withPCAux seen l ↔
      ∃ pre suf, l = pre ++ x.1 :: suf ∧ x.2 = pcDelta (seen ++ pre) x.1 := by
  induction l with
  | nil => intro seen; simp [withPCAux]
  | cons r rest ih =>
    intro seen
    simp only [withPCAux, List.mem_cons, ih (seen ++ [r])]
    constructor
    · rintro (h | ⟨pre, suf, hl, hd⟩)
      · refine ⟨[], rest, ?_, ?_⟩
        · rw [List.nil_append, h]
        · rw [List.append_nil, h]
      · exact ⟨r :: pre, suf, by simp [hl], by simpa [List.append_assoc] using hd⟩
    · rintro ⟨pre, suf, hl, hd⟩
      cases pre with
      | nil =>
        left
        simp only [List.nil_append] at hl
        injection hl with h1 h2
        rw [List.append_nil] at hd
        rw [h1, ← hd]
      | cons p pre' =>
        right
        injection hl with h1 h2
        subst h1
        exact ⟨pre', suf, h2, by simpa [List.append_assoc] using hd⟩

theorem mem_withPC {x : Rec × PFloat} (l : List Rec) :
    x ∈ withPC l ↔ ∃ pre suf, l = pre ++ x.1 :: suf ∧ x.2 = pcDelta pre x.1 := by
  simpa using mem_withPCAux l []

theorem partitionOf_append (l1 l2 : List Rec) (m : String) :
    partitionOf (l1 ++ l2) m = partitionOf l1 m ++ partitionOf l2 m :=
  List.filter_append l1 l2

theorem mem_partitionOf {x : Rec} {l : List Rec} {m : String} :
    x ∈ partitionOf l m ↔ x ∈ l ∧ x.merchant = m := by
  simp [partitionOf, List.mem_filter]

theorem partitionOf_length_eq_countP (l : List Rec) (m : String) :
    (partitionOf l m).length = l.countP (fun s => decide (s.merchant = m)) :=
  (List.countP_eq_length_filter _ l).symm

theorem pcDelta_eq_nan_iff (pre : List Rec) (r : Rec) :
    pcDelta pre r = PFloat.nan ↔ partitionOf pre r.merchant = [] := by
  unfold pcDelta
  cases h : (partitionOf pre r.merchant).getLast? with
  | none => simpa [List.getLast?_eq_none_iff] using h
  | some p =>
    simp only [h]
    constructor
    · intro hc; cases hc
    · intro hc; rw [hc] at h; cases h

theorem pcDelta_eq_num_iff (pre : List Rec) (r : Rec) (d : Int) :
    pcDelta pre r = PFloat.num d ↔
      ∃ p init, partitionOf pre r.merchant = init ++ [p] ∧ d = r.amount - p.amount := by
  unfold pcDelta
  cases h : (partitionOf pre r.merchant).getLast? with
  | none =>
    simp only [List.getLast?_eq_none_iff] at h
    constructor
    · intro hc; cases hc
    · rintro ⟨p, init, hp, _⟩
      rw [h] at hp
      exact absurd hp.symm (List.append_ne_nil_of_right_ne_nil init (by simp))
  | some p =>
    rw [List.getLast?_eq_some_iff] at h
    obtain ⟨init, hinit⟩ := h
    constructor
    · intro hc
      injection hc with hd
      exact ⟨p, init, hinit, hd.symm⟩
    · rintro ⟨p', init', hp', hd'⟩
      rw [hinit] at hp'
      have : p = p' := by
        have := congrArg List.getLast? hp'
        simpa using this
      rw [hd', this]

theorem mem_recurringOf {r : Rec} {l : List Rec} :
    r ∈ recurringOf l ↔ r ∈ l ∧ 2 ≤ (partitionOf l r.merchant).length := by
  simp [recurringOf, List.mem_filter, partitionOf_length_eq_countP]

theorem recurringOf_sublist (l : List Rec) : (recurringOf l).Sublist l :=
  List.filter_sublist l

theorem partitionOf_recurringOf {l : List Rec} {m : String}
    (hc : 2 ≤ (partitionOf l m).length) :
    partitionOf (recurringOf l) m = partitionOf l m := by
  unfold partitionOf recurringOf
  rw [List.filter_filter]
  apply List.filter_congr
  intro x hx
  by_cases hm : x.merchant = m
  · have : (l.countP fun s => decide (s.merchant = x.merchant)) =
        l.countP fun s => decide (s.merchant = m) := by rw [hm]
    rw [partitionOf_length_eq_countP] at hc
    simp [hm, this, hc]
  · simp [hm]

theorem sortedOf_perm (l : List Rec) : (sortedOf l).Perm l :=
  List.perm_insertionSort rle l

theorem sorted_sortedOf (l : List Rec) : List.Sorted rle (sortedOf l) :=
  List.sorted_insertionSort rle l

theorem colIdx_none_iff (cols : List String) (c : String) :
    colIdx cols c = none ↔ c ∉ cols := by
  induction cols with
  | nil => simp [colIdx]
  | cons c' rest ih =>
    by_cases h : c' = c
    · simp [colIdx, h]
    · simp only [colIdx, if_neg h, Option.map_eq_none', ih, List.mem_cons, not_or]
      exact ⟨fun hr => ⟨fun hc => h hc.symm, hr⟩, fun hr => hr.2⟩

theorem colIdx_isSome_of_mem {cols : List String} {c : String} (h : c ∈ cols) :
    ∃ i, colIdx cols c = some i := by
  cases hc : colIdx cols c with
  | none => exact absurd h ((colIdx_none_iff cols c).mp hc)
  | some i => exact ⟨i, rfl⟩

theorem parseAll_ok_length {p : Cell → Option Int} :
    ∀ {cs : List Cell} {vs : List Int}, parseAll p cs = .ok vs → vs.length = cs.length := by
  intro cs
  induction cs with
  | nil => intro vs h; cases h; rfl
  | cons c rest ih =>
    intro vs h
    unfold parseAll at h
    cases hp : p c with
    | none => rw [hp] at h; cases h
    | some v =>
      rw [hp] at h
      cases hr : parseAll p rest with
      | error e => rw [hr] at h; cases h
      | ok vs' =>
        rw [hr] at h
        cases h
        simp [ih hr]

theorem parseAll_error_shape {p : Cell → Option Int} :
    ∀ {cs : List Cell} {e : Err}, parseAll p cs = .error e → ∃ c, e = .parseError c := by
  intro cs
  induction cs with
  | nil => intro e h; cases h
  | cons c rest ih =>
    intro e h
    unfold parseAll at h
    cases hp : p c with
    | none => rw [hp] at h; cases h; exact ⟨c, rfl⟩
    | some v =>
      rw [hp] at h
      cases hr : parseAll p rest with
      | error e' => rw [hr] at h; cases h; exact ih hr
      | ok vs => rw [hr] at h; cases h

theorem parseAll_error_of_mem {p : Cell → Option Int} {cs : List Cell} {c : Cell}
    (hm : c ∈ cs) (hp : p c = none) : ∃ c', parseAll p cs = .error (.parseError c') := by
  induction cs with
  | nil => cases hm
  | cons c0 rest ih =>
    unfold parseAll
    cases hp0 : p c0 with
    | none => exact ⟨c0, rfl⟩
    | some v =>
      have hm' : c ∈ rest := by
        rcases List.mem_cons.mp hm with h | h
        · rw [h] at hp; rw [hp] at hp0; cases hp0
        · exact h
      obtain ⟨c', hc'⟩ := ih hm'
      rw [hc']
      exact ⟨c', rfl⟩

theorem parseAll_ok_forall {p : Cell → Option Int} {cs : List Cell} {vs : List Int}
    (h : parseAll p cs = .ok vs) : ∀ c ∈ cs, p c ≠ none := by
  intro c hm hp
  obtain ⟨c', hc'⟩ := parseAll_error_of_mem hm hp
  rw [hc'] at h
  cases h

theorem mkRecs_map_idx (mi : Nat) :
    ∀ (rs : List (List Cell)) (ds amts : List Int) (i : Nat),
      ds.length = rs.length → amts.length = rs.length →
      (mkRecs mi rs ds amts i).map Rec.idx = List.range' i rs.length
  | [], [], [], _, _, _ => rfl
  | [], [], _ :: _, _, _, h => by cases h
  | [], _ :: _, _, _, h, _ => by cases h
  | _ :: _, [], _, _, h, _ => by cases h
  | _ :: _, _ :: _, [], _, _, h => by cases h
  | r :: rs, d :: ds, a :: amts, i, hd, ha => by
    simp only [mkRecs, List.map_cons, List.length_cons, List.range'_succ]
    rw [mkRecs_map_idx mi rs ds amts (i + 1) (by simpa using hd) (by simpa using ha)]

theorem mem_mkRecs_raw {mi : Nat} :
    ∀ {rs : List (List Cell)} {ds amts : List Int} {i : Nat} {r : Rec},
      r ∈ mkRecs mi rs ds amts i → r.raw ∈ rs := by
  intro rs
  induction rs with
  | nil => intro ds amts i r h; simp [mkRecs] at h
  | cons row rest ih =>
    intro ds amts i r h
    cases ds with
    | nil => simp [mkRecs] at h
    | cons d ds' =>
      cases amts with
      | nil => simp [mkRecs] at h
      | cons a amts' =>
        simp only [mkRecs, List.mem_cons] at h
        rcases h with h | h
        · rw [h]; exact List.mem_cons_self _ _
        · exact List.mem_cons_of_mem _ (ih h)

/-! ### Inversion of the validation stage and the engine -/

theorem validated_ok {pdate pamount : Cell → Option Int} {f : Frame} {di ai : Nat}
    {rows : List Rec} (h : validated pdate pamount f = .ok (di, ai, rows)) :
    colIdx f.cols "date" = some di ∧ colIdx f.cols "amount" = some ai ∧
      ∃ mi dates amounts, colIdx f.cols "merchant" = some mi ∧
        parseAll pdate (f.rows.map (fun r => getCell r di)) = .ok dates ∧
        amounts.length = f.rows.length ∧
        rows = mkRecs mi f.rows dates amounts 0 := by
  unfold validated at h
  cases hd : colIdx f.cols "date" with
  | none => simp only [hd] at h; cases h
  | some di' =>
    simp only [hd] at h
    cases hds : parseAll pdate (f.rows.map (fun r => getCell r di')) with
    | error e => simp only [hds] at h; cases h
    | ok dates =>
      simp only [hds] at h
      cases hm : colIdx f.cols "merchant" with
      | none => simp only [hm] at h; cases h
      | some mi =>
        simp only [hm] at h
        cases ha : colIdx f.cols "amount" with
        | none => simp only [ha] at h; cases h
        | some ai' =>
          simp only [ha] at h
          cases hrec : rawRecurs mi f.rows with
          | true =>
            simp only [hrec] at h
            cases has : parseAll pamount (f.rows.map (fun r => getCell r ai')) with
            | error e => simp only [has] at h; cases h
            | ok amounts =>
              simp only [has, Except.ok.injEq, Prod.mk.injEq] at h
              obtain ⟨h1, h2, h3⟩ := h
              subst h1; subst h2
              exact ⟨rfl, rfl, mi, dates, amounts, rfl, hds,
                by simpa using parseAll_ok_length has, h3.symm⟩
          | false =>
            simp only [hrec, Except.ok.injEq, Prod.mk.injEq] at h
            obtain ⟨h1, h2, h3⟩ := h
            subst h1; subst h2
            exact ⟨rfl, rfl, mi, dates, amountsOf pamount ai' f.rows, rfl, hds,
              by simp [amountsOf], h3.symm⟩

theorem find_subscription_leeches_ok {pdate pamount : Cell → Option Int} {f : Frame}
    {di ai : Nat} {out : List (Rec × PFloat)}
    (h : find_subscription_leeches pdate pamount f = .ok (di, ai, out)) :
    ∃ rows, validated pdate pamount f = .ok (di, ai, rows) ∧ out = engine rows ∧
      sortedInput pdate pamount f = sortedOf rows := by
  cases hv : validated pdate pamount f with
  | error e =>
    have herr : find_subscription_leeches pdate pamount f = .error e := by
      unfold find_subscription_leeches
      rw [hv]
    rw [herr] at h
    cases h
  | ok t =>
    obtain ⟨di', ai', rows⟩ := t
    have hfsl : find_subscription_leeches pdate pamount f = .ok (di', ai', engine rows) := by
      unfold find_subscription_leeches
      rw [hv]
    rw [hfsl] at h
    simp only [Except.ok.injEq, Prod.mk.injEq] at h
    obtain ⟨h1, h2, h3⟩ := h
    subst h1; subst h2
    exact ⟨rows, rfl, h3.symm, by unfold sortedInput; rw [hv]⟩

theorem find_subscription_leeches_error {pdate pamount : Cell → Option Int} {f : Frame}
    {e : Err} (h : validated pdate pamount f = .error e) :
    find_subscription_leeches pdate pamount f = .error e := by
  unfold find_subscription_leeches
  rw [h]

theorem analyze_transactions_error {pdate pamount : Cell → Option Int} {f : Frame}
    {e : Err} (h : find_subscription_leeches pdate pamount f = .error e) :
    analyze_transactions pdate pamount f = "Error: " ++ e.message := by
  unfold analyze_transactions
  rw [h]

/-! ### Distinctness of original positions through the pipeline -/

theorem rows_idx_nodup {pdate pamount : Cell → Option Int} {f : Frame} {di ai : Nat}
    {rows : List Rec} (h : validated pdate pamount f = .ok (di, ai, rows)) :
    (rows.map Rec.idx).Nodup := by
  obtain ⟨_, _, mi, dates, amounts, _, hds, hal, hrows⟩ := validated_ok h
  have hdl : dates.length = f.rows.length := by
    simpa using parseAll_ok_length hds
  rw [hrows, mkRecs_map_idx mi f.rows dates amounts 0 hdl hal]
  exact List.nodup_range' 0 f.rows.length

theorem recurring_sorted_idx_nodup {rows : List Rec} (h : (rows.map Rec.idx).Nodup) :
    ((recurringOf (sortedOf rows)).map Rec.idx).Nodup := by
  have hs : ((sortedOf rows).map Rec.idx).Nodup :=
    ((List.Perm.map Rec.idx (sortedOf_perm rows)).nodup_iff).mpr h
  exact List.Nodup.sublist (List.Sublist.map Rec.idx (recurringOf_sublist _)) hs

theorem not_mem_of_idx_nodup {l pre suf : List Rec} {a : Rec}
    (hn : (l.map Rec.idx).Nodup) (hl : l = pre ++ a :: suf) : a ∉ pre := by
  subst hl
  rw [List.map_append, List.map_cons] at hn
  have hdis := List.disjoint_of_nodup_append hn
  intro hmem
  exact hdis (List.mem_map_of_mem Rec.idx hmem) (List.mem_cons_self _ _)

/-! ### The hike filter and the diff column -/

theorem mem_hikes {x : Rec × PFloat} {l : List Rec} :
    x ∈ hikes l ↔ x ∈ withPC l ∧ x.2.gtZero = true :=
  List.mem_filter

theorem fst_mem_of_mem_withPC {x : Rec × PFloat} {l : List Rec} (h : x ∈ withPC l) :
    x.1 ∈ l := by
  have := List.mem_map_of_mem Prod.fst h
  rwa [withPC_map_fst] at this

theorem hikes_delta {l : List Rec} {x : Rec × PFloat} (hx : x ∈ hikes l) :
    ∃ d pre suf, x.2 = PFloat.num d ∧ 0 < d ∧ l = pre ++ x.1 :: suf ∧
      pcDelta pre x.1 = PFloat.num d := by
  obtain ⟨hw, hg⟩ := mem_hikes.mp hx
  obtain ⟨pre, suf, hl, hd⟩ := (mem_withPC l).mp hw
  cases hx2 : x.2 with
  | nan => rw [hx2] at hg; cases hg
  | num d =>
    rw [hx2] at hg
    refine ⟨d, pre, suf, rfl, ?_, hl, by rw [← hd, hx2]⟩
    simpa [PFloat.gtZero] using hg

theorem pcDelta_adjacent {l pre suf : List Rec} {r : Rec} {d : Int}
    (hl : l = pre ++ r :: suf) (hd : pcDelta pre r = PFloat.num d) :
    ∃ prev p1 p2, partitionOf l r.merchant = p1 ++ prev :: r :: p2 ∧
      d = r.amount - prev.amount := by
  obtain ⟨p, init, hp, hdd⟩ := (pcDelta_eq_num_iff pre r d).mp hd
  refine ⟨p, init, partitionOf suf r.merchant, ?_, hdd⟩
  rw [hl, partitionOf_append, hp]
  simp [partitionOf, List.filter_cons]

theorem head_partition_nan_aux :
    ∀ (l seen : List Rec) (m : String) (h0 : Rec) (t : List Rec),
      partitionOf seen m = [] → partitionOf l m = h0 :: t →
      (h0, PFloat.nan) ∈ withPCAux seen l := by
  intro l
  induction l with
  | nil => intro seen m h0 t _ hp; cases hp
  | cons r rest ih =>
    intro seen m h0 t hseen hp
    unfold partitionOf at hp
    rw [List.filter_cons] at hp
    by_cases hm : r.merchant = m
    · rw [if_pos (by simp [hm])] at hp
      injection hp with hp1 hp2
      have hnan : pcDelta seen r = PFloat.nan := by
        rw [pcDelta_eq_nan_iff, hm]
        exact hseen
      rw [withPCAux, ← hp1, ← hnan]
      exact List.mem_cons_self _ _
    · rw [if_neg (by simp [hm])] at hp
      have hseen' : partitionOf (seen ++ [r]) m = [] := by
        rw [partitionOf_append, hseen]
        simp [partitionOf, List.filter_cons, hm]
      exact List.mem_cons_of_mem _ (ih (seen ++ [r]) m h0 t hseen' hp)

theorem head_partition_nan {l : List Rec} {m : String} {h0 : Rec} {t : List Rec}
    (hp : partitionOf l m = h0 :: t) : (h0, PFloat.nan) ∈ withPC l :=
  head_partition_nan_aux l [] m h0 t rfl hp

/-! ### Concrete fixtures for witnesses and counterexamples -/

/-- A concrete date parser used to instantiate the library's
`pd.to_datetime` in witnesses. -/
def pd0 (c : Cell) : Option Int :=
  if c = "1" then some 1 else if c = "2" then some 2 else if c = "3" then some 3 else none

/-- A concrete amount parser used to instantiate `read_csv`'s numeric
coercion in witnesses. -/
def pa0 (c : Cell) : Option Int :=
  if c = "5" then some 5 else
    if c = "10" then some 10 else
      if c = "12" then some 12 else
        if c = "15" then some 15 else none

/-! ### Claim C1 -/

/-- Claim C1: for every input and every emitted hike event, the event's
delta is strictly positive and equals the triggering record's amount
minus the amount of the chronologically immediately preceding record of
the same merchant: the triggering record and the record `prev` are
adjacent inside the merchant partition of the sorted input. -/
theorem claim_C1_hike_delta (pdate pamount : Cell → Option Int) (f : Frame)
    (di ai : Nat) (out : List (Rec × PFloat))
    (h : find_subscription_leeches pdate pamount f = .ok (di, ai, out))
    (x : Rec × PFloat) (hx : x ∈ out) :
    ∃ d prev p1 p2,
      x.2 = PFloat.num d ∧ 0 < d ∧ d = x.1.amount - prev.amount ∧
      partitionOf (sortedInput pdate pamount f) x.1.merchant =
        p1 ++ prev :: x.1 :: p2 := by
  obtain ⟨rows, hv, hout, hS⟩ := find_subscription_leeches_ok h
  rw [hout] at hx
  unfold engine at hx
  obtain ⟨d, pre, suf, hx2, hd0, hR, hpc⟩ := hikes_delta hx
  obtain ⟨prev, p1, p2, hadj, hdd⟩ := pcDelta_adjacent hR hpc
  have hmem : x.1 ∈ recurringOf (sortedOf rows) := by
    rw [hR]
    exact List.mem_append_right _ (List.mem_cons_self _ _)
  have hcnt := (mem_recurringOf.mp hmem).2
  rw [partitionOf_recurringOf hcnt] at hadj
  rw [hS]
  exact ⟨d, prev, p1, p2, hx2, hd0, hdd, hadj⟩

/-- The frame of §8 Scenario A restricted to three rows: merchant B has a
single record and merchant A rises from 10 to 12. -/
def frame1 : Frame :=
  ⟨["date", "merchant", "amount"],
   [["1", "B", "5"], ["1", "A", "10"], ["2", "A", "12"]]⟩

/-- The single hike event the engine emits on `frame1`. -/
def hike1 : Rec × PFloat := (⟨["2", "A", "12"], 2, 2, "A", 12⟩, PFloat.num 2)

theorem claim_C1_hike_delta_witness :
    ∃ d prev p1 p2,
      hike1.2 = PFloat.num d ∧ 0 < d ∧ d = hike1.1.amount - prev.amount ∧
      partitionOf (sortedInput pd0 pa0 frame1) hike1.1.merchant =
        p1 ++ prev :: hike1.1 :: p2 :=
  claim_C1_hike_delta pd0 pa0 frame1 0 2 [hike1] rfl hike1 (by decide)

/-! ### Claim C2 -/

/-- Claim C2: a merchant with exactly one record contributes no hike
event; and for a merchant with two or more records, the first
chronological record of its partition is marked recurring (it survives
the `duplicated(keep=False)` stage) yet is excluded from the output
because it carries no delta (its `price_change` is the NaN the diff
stage assigns, which the hike filter drops). -/
theorem claim_C2_single_and_first (pdate pamount : Cell → Option Int) (f : Frame)
    (di ai : Nat) (out : List (Rec × PFloat))
    (h : find_subscription_leeches pdate pamount f = .ok (di, ai, out)) (m : String) :
    ((partitionOf (sortedInput pdate pamount f) m).length = 1 →
      ∀ x ∈ out, x.1.merchant ≠ m) ∧
    (∀ h0 t, partitionOf (sortedInput pdate pamount f) m = h0 :: t → t ≠ [] →
      h0 ∈ recurringOf (sortedInput pdate pamount f) ∧
      (h0, PFloat.nan) ∈ withPC (recurringOf (sortedInput pdate pamount f)) ∧
      ∀ pf, (h0, pf) ∉ out) := by
  obtain ⟨rows, hv, hout, hS⟩ := find_subscription_leeches_ok h
  rw [hS]
  constructor
  · intro hlen x hx hxm
    rw [hout] at hx
    unfold engine at hx
    have hfst : x.1 ∈ recurringOf (sortedOf rows) :=
      fst_mem_of_mem_withPC (mem_hikes.mp hx).1
    have hcnt := (mem_recurringOf.mp hfst).2
    rw [hxm, hlen] at hcnt
    omega
  · intro h0 t hp ht
    have hlen2 : 2 ≤ (partitionOf (sortedOf rows) m).length := by
      rw [hp]
      have := List.length_pos.mpr ht
      simp only [List.length_cons]
      omega
    have hmem_part : h0 ∈ partitionOf (sortedOf rows) m := by
      rw [hp]
      exact List.mem_cons_self _ _
    obtain ⟨hh0S, hh0m⟩ := mem_partitionOf.mp hmem_part
    have hpartR : partitionOf (recurringOf (sortedOf rows)) m = h0 :: t := by
      rw [partitionOf_recurringOf hlen2, hp]
    refine ⟨mem_recurringOf.mpr ⟨hh0S, by rw [hh0m]; exact hlen2⟩,
      head_partition_nan hpartR, ?_⟩
    intro pf hmem
    rw [hout] at hmem
    unfold engine at hmem
    obtain ⟨d, pre, suf, hpf, hd0, hR, hpc⟩ := hikes_delta hmem
    obtain ⟨p, init, hpp, hdd⟩ := (pcDelta_eq_num_iff pre (h0, pf).1 d).mp hpc
    have hh0m' : (h0, pf).1.merchant = m := hh0m
    rw [hh0m'] at hpp
    have hnodup : ((recurringOf (sortedOf rows)).map Rec.idx).Nodup :=
      recurring_sorted_idx_nodup (rows_idx_nodup hv)
    have hnotpre : (h0, pf).1 ∉ pre := not_mem_of_idx_nodup hnodup hR
    have hsplit : partitionOf (recurringOf (sortedOf rows)) m =
        partitionOf pre m ++ (h0, pf).1 :: partitionOf suf m := by
      rw [hR, partitionOf_append]
      simp [partitionOf, List.filter_cons, hh0m]
    rw [hpartR, hpp] at hsplit
    cases hinit : init with
    | nil =>
      rw [hinit] at hsplit
      simp only [List.nil_append, List.cons_append] at hsplit
      injection hsplit with he1 he2
      have hpmem : p ∈ partitionOf pre m := by
        rw [hpp, hinit]
        simp
      exact hnotpre (he1 ▸ (mem_partitionOf.mp hpmem).1)
    | cons i0 init' =>
      rw [hinit] at hsplit
      simp only [List.cons_append, List.append_assoc] at hsplit
      injection hsplit with he1 he2
      have himem : i0 ∈ partitionOf pre m := by
        rw [hpp, hinit]
        simp
      exact hnotpre (he1 ▸ (mem_partitionOf.mp himem).1)

/-- The same data as `frame1`, as a fixture for the C2 witness. -/
def frame2 : Frame :=
  ⟨["date", "merchant", "amount"],
   [["1", "B", "5"], ["1", "A", "10"], ["2", "A", "12"]]⟩

/-- The single hike event the engine emits on `frame2`. -/
def hike2 : Rec × PFloat := (⟨["2", "A", "12"], 2, 2, "A", 12⟩, PFloat.num 2)

theorem claim_C2_single_and_first_witness :
    ((partitionOf (sortedInput pd0 pa0 frame2) "B").length = 1 →
      ∀ x ∈ [hike2], x.1.merchant ≠ "B") ∧
    (∀ h0 t, partitionOf (sortedInput pd0 pa0 frame2) "B" = h0 :: t → t ≠ [] →
      h0 ∈ recurringOf (sortedInput pd0 pa0 frame2) ∧
      (h0, PFloat.nan) ∈ withPC (recurringOf (sortedInput pd0 pa0 frame2)) ∧
      ∀ pf, (h0, pf) ∉ [hike2]) :=
  claim_C2_single_and_first pd0 pa0 frame2 0 2 [hike2] rfl "B"

/-! ### Claim C3 -/

/-- Claim C3: the emitted hike events are ordered merchant-ascending,
then date-ascending, with ties broken by original input position (the
relation `rle`), and they form a subsequence of the sorted record
sequence, so the stable sort order of the partition traversal is
preserved in the output. -/
theorem claim_C3_output_order (pdate pamount : Cell → Option Int) (f : Frame)
    (di ai : Nat) (out : List (Rec × PFloat))
    (h : find_subscription_leeches pdate pamount f = .ok (di, ai, out)) :
    List.Sorted rle (out.map Prod.fst) ∧
    (out.map Prod.fst).Sublist (sortedInput pdate pamount f) := by
  obtain ⟨rows, hv, hout, hS⟩ := find_subscription_leeches_ok h
  rw [hout, hS]
  unfold engine hikes
  have h1 := List.filter_sublist (p := fun x => x.2.gtZero)
    (withPC (recurringOf (sortedOf rows)))
  have h2 := List.Sublist.map Prod.fst h1
  rw [withPC_map_fst] at h2
  have h4 := h2.trans (recurringOf_sublist (sortedOf rows))
  exact ⟨List.Pairwise.sublist h4 (sorted_sortedOf rows), h4⟩

/-- A fixture for the C3 witness: two merchants, two hikes for A. -/
def frame3 : Frame :=
  ⟨["date", "merchant", "amount"],
   [["1", "B", "5"], ["2", "B", "10"], ["1", "A", "10"], ["2", "A", "12"]]⟩

/-- The hike events the engine emits on `frame3`, merchant A before B. -/
def out3 : List (Rec × PFloat) :=
  [(⟨["2", "A", "12"], 3, 2, "A", 12⟩, PFloat.num 2),
   (⟨["2", "B", "10"], 1, 2, "B", 10⟩, PFloat.num 5)]

theorem claim_C3_output_order_witness :
    List.Sorted rle (out3.map Prod.fst) ∧
    (out3.map Prod.fst).Sublist (sortedInput pd0 pa0 frame3) :=
  claim_C3_output_order pd0 pa0 frame3 0 2 out3 rfl

/-! ### Claim C6 -/

/-- A string whose text does not begin with the letter E differs from
every string of the form `Error: ` + tail. -/
theorem ne_error_string (s t : String) (h : t.data.head? ≠ some 'E') :
    t ≠ "Error: " ++ s := by
  intro he
  apply h
  rw [he, String.data_append]
  rfl

/-- Claim C6: an input with the required columns but zero data rows is
not an error: the engine succeeds with an empty event list and the tool
answers `No price hikes found.`, which is distinguishable from the
`Error: `-prefixed failure strings. -/
theorem claim_C6_empty_input (pdate pamount : Cell → Option Int) (f : Frame)
    (hd : "date" ∈ f.cols) (hm : "merchant" ∈ f.cols) (ha : "amount" ∈ f.cols)
    (hr : f.rows = []) :
    ∃ di ai, find_subscription_leeches pdate pamount f = .ok (di, ai, []) ∧
      analyze_transactions pdate pamount f = "No price hikes found." ∧
      ∀ e : Err, "No price hikes found." ≠ "Error: " ++ e.message := by
  obtain ⟨di, hdi⟩ := colIdx_isSome_of_mem hd
  obtain ⟨mi, hmi⟩ := colIdx_isSome_of_mem hm
  obtain ⟨ai, hai⟩ := colIdx_isSome_of_mem ha
  have hv : validated pdate pamount f = .ok (di, ai, []) := by
    unfold validated
    rw [hdi, hmi, hai, hr]
    simp [parseAll, mkRecs, rawRecurs, amountsOf]
  have hfsl : find_subscription_leeches pdate pamount f = .ok (di, ai, []) := by
    unfold find_subscription_leeches
    rw [hv]
    simp [engine, hikes, withPC, withPCAux, recurringOf, sortedOf, List.insertionSort]
  refine ⟨di, ai, hfsl, ?_, fun e => ne_error_string e.message _ (by decide)⟩
  unfold analyze_transactions
  rw [hfsl]
  simp

/-- A fixture for the C6 witness: the required header and no rows. -/
def frame6 : Frame := ⟨["date", "merchant", "amount"], []⟩

theorem claim_C6_empty_input_witness :
    ("date" ∈ frame6.cols ∧ "merchant" ∈ frame6.cols ∧ "amount" ∈ frame6.cols ∧
      frame6.rows = []) ∧
    (∃ di ai, find_subscription_leeches pd0 pa0 frame6 = .ok (di, ai, []) ∧
      analyze_transactions pd0 pa0 frame6 = "No price hikes found." ∧
      ∀ e : Err, "No price hikes found." ≠ "Error: " ++ e.message) :=
  ⟨⟨by decide, by decide, by decide, rfl⟩,
    claim_C6_empty_input pd0 pa0 frame6 (by decide) (by decide) (by decide) rfl⟩

/-! ### Claim C8 -/

/-- Claim C8: the engine is deterministic: it is a pure function of the
input table (given the library's parsers), so two invocations on equal
inputs return identical results, both at the engine level and at the
serialized-string level, ordering included. -/
theorem claim_C8_deterministic (pdate pamount : Cell → Option Int) (f g : Frame)
    (h : f = g) :
    find_subscription_leeches pdate pamount f = find_subscription_leeches pdate pamount g ∧
    analyze_transactions pdate pamount f = analyze_transactions pdate pamount g := by
  subst h
  exact ⟨rfl, rfl⟩

/-- A fixture for the C8 witness. -/
def frame8 : Frame :=
  ⟨["date", "merchant", "amount"], [["1", "A", "10"], ["2", "A", "12"]]⟩

theorem claim_C8_deterministic_witness :
    find_subscription_leeches pd0 pa0 frame8 = find_subscription_leeches pd0 pa0 frame8 ∧
    analyze_transactions pd0 pa0 frame8 = analyze_transactions pd0 pa0 frame8 :=
  claim_C8_deterministic pd0 pa0 frame8 frame8 rfl

/-! ### Claim C10 -/

/-- Claim C10: `analyze_transactions` is total and returns a string on
every input: the text `Error: ` followed by the exception message when
the engine fails, exactly `No price hikes found.` when it succeeds with
zero findings, and the JSON array of records otherwise; success with no
findings and failure are told apart only by the string content. -/
theorem claim_C10_tool_trichotomy (pdate pamount : Cell → Option Int) (f : Frame) :
    (∃ e, find_subscription_leeches pdate pamount f = .error e ∧
      analyze_transactions pdate pamount f = "Error: " ++ e.message) ∨
    (∃ di ai, find_subscription_leeches pdate pamount f = .ok (di, ai, []) ∧
      analyze_transactions pdate pamount f = "No price hikes found.") ∨
    (∃ di ai out, find_subscription_leeches pdate pamount f = .ok (di, ai, out) ∧
      out ≠ [] ∧
      analyze_transactions pdate pamount f = jsonString (toRecords f.cols di ai out)) := by
  cases hf : find_subscription_leeches pdate pamount f with
  | error e => exact Or.inl ⟨e, rfl, analyze_transactions_error hf⟩
  | ok t =>
    obtain ⟨di, ai, out⟩ := t
    by_cases hout : out = []
    · subst hout
      refine Or.inr (Or.inl ⟨di, ai, rfl, ?_⟩)
      unfold analyze_transactions
      rw [hf]
      simp
    · refine Or.inr (Or.inr ⟨di, ai, out, rfl, hout, ?_⟩)
      unfold analyze_transactions
      rw [hf]
      simp only [List.isEmpty_iff, if_neg hout]

/-! ### Claim C4 -/

/-- A fixture missing the required `amount` column. -/
def frame4 : Frame := ⟨["date", "merchant"], [["1", "A"]]⟩

/-- Claim C4 counterexample: on an input without the `amount` column the
tool does not return a structured, typed SchemaError value: the engine
raises a `KeyError` and the tool catches it and returns the plain string
`Error: 'amount'`, so the caller can only string-match; no SchemaError
type exists anywhere in the code. -/
theorem claim_C4_counterexample :
    find_subscription_leeches pd0 pa0 frame4 = .error (Err.keyError "amount") ∧
    analyze_transactions pd0 pa0 frame4 = "Error: 'amount'" :=
  ⟨rfl, rfl⟩

/-- Claim C4 as amended: when a required column (`date`, `merchant` or
`amount`) is absent, the invocation fails as a whole — the engine
produces no rows at all and the tool returns the exception text prefixed
with `Error: `, a plain string rather than a typed SchemaError value. -/
theorem claim_C4_missing_column (pdate pamount : Cell → Option Int) (f : Frame)
    (h : "date" ∉ f.cols ∨ "merchant" ∉ f.cols ∨ "amount" ∉ f.cols) :
    ∃ e, find_subscription_leeches pdate pamount f = .error e ∧
      analyze_transactions pdate pamount f = "Error: " ++ e.message := by
  cases hv : validated pdate pamount f with
  | error e =>
    exact ⟨e, find_subscription_leeches_error hv,
      analyze_transactions_error (find_subscription_leeches_error hv)⟩
  | ok t =>
    obtain ⟨di, ai, rows⟩ := t
    obtain ⟨hd, ha, mi, dates, amounts, hm, _, _, _⟩ := validated_ok hv
    rcases h with h | h | h
    · exact absurd ((colIdx_none_iff _ _).mpr h) (by rw [hd]; simp)
    · exact absurd ((colIdx_none_iff _ _).mpr h) (by rw [hm]; simp)
    · exact absurd ((colIdx_none_iff _ _).mpr h) (by rw [ha]; simp)

theorem claim_C4_missing_column_witness :
    ∃ e, find_subscription_leeches pd0 pa0 frame4 = .error e ∧
      analyze_transactions pd0 pa0 frame4 = "Error: " ++ e.message :=
  claim_C4_missing_column pd0 pa0 frame4 (by decide)

/-! ### Claim C5 -/

theorem parseAll_ok_of_forall {p : Cell → Option Int} :
    ∀ {cs : List Cell}, (∀ c ∈ cs, p c ≠ none) → ∃ vs, parseAll p cs = .ok vs := by
  intro cs
  induction cs with
  | nil => intro _; exact ⟨[], rfl⟩
  | cons c rest ih =>
    intro h
    cases hp : p c with
    | none => exact absurd hp (h c (List.mem_cons_self _ _))
    | some v =>
      obtain ⟨vs, hvs⟩ := ih (fun c' hc' => h c' (List.mem_cons_of_mem _ hc'))
      refine ⟨v :: vs, ?_⟩
      unfold parseAll
      rw [hp, hvs]

theorem mem_mkRecs_merchant {mi : Nat} :
    ∀ {rs : List (List Cell)} {ds amts : List Int} {i : Nat} {r : Rec},
      r ∈ mkRecs mi rs ds amts i → r.merchant = getCell r.raw mi := by
  intro rs
  induction rs with
  | nil => intro ds amts i r h; simp [mkRecs] at h
  | cons row rest ih =>
    intro ds amts i r h
    cases ds with
    | nil => simp [mkRecs] at h
    | cons d ds' =>
      cases amts with
      | nil => simp [mkRecs] at h
      | cons a amts' =>
        simp only [mkRecs, List.mem_cons] at h
        rcases h with h | h
        · rw [h]
        · exact ih h

theorem countP_mkRecs_le (mi : Nat) (m : String) :
    ∀ (rs : List (List Cell)) (ds amts : List Int) (i : Nat),
      (mkRecs mi rs ds amts i).countP (fun s => decide (s.merchant = m)) ≤
        rs.countP (fun s => decide (getCell s mi = m))
  | [], _, _, _ => by simp [mkRecs]
  | _ :: _, [], _, _ => by simp [mkRecs]
  | _ :: _, _ :: _, [], _ => by simp [mkRecs]
  | r :: rs, d :: ds, a :: amts, i => by
    simp only [mkRecs, List.countP_cons]
    exact Nat.add_le_add (countP_mkRecs_le mi m rs ds amts (i + 1)) (Nat.le_refl _)

/-- When no merchant cell recurs, the recurring frame built from the
records is empty, whatever date and amount values the records carry. -/
theorem recurring_empty_of_rawRecurs_false {mi : Nat} {rs : List (List Cell)}
    (h : rawRecurs mi rs = false) (ds amts : List Int) :
    recurringOf (sortedOf (mkRecs mi rs ds amts 0)) = [] := by
  unfold recurringOf
  rw [List.filter_eq_nil_iff]
  intro r hr
  simp only [decide_eq_true_eq, not_le]
  rw [(sortedOf_perm _).countP_eq]
  have hr' : r ∈ mkRecs mi rs ds amts 0 := (sortedOf_perm _).mem_iff.mp hr
  have hme := mem_mkRecs_merchant hr'
  have hraw := mem_mkRecs_raw hr'
  have hle := countP_mkRecs_le mi (getCell r.raw mi) rs ds amts 0
  have hfalse := List.any_eq_false.mp h r.raw hraw
  simp only [decide_eq_true_eq, not_le] at hfalse
  rw [hme]
  omega

/-- A fixture whose single merchant occurs once and whose amount cell
cannot be parsed as a number. -/
def frame5bad : Frame := ⟨["date", "merchant", "amount"], [["1", "A", "xx"]]⟩

/-- Claim C5 counterexample: a row with an unparseable `amount` does not
always abort the invocation: on `frame5bad` no merchant recurs, so the
recurring frame is empty, `.diff()` never subtracts the non-numeric
amounts, and the program succeeds with `No price hikes found.` instead
of failing with any parse error. -/
theorem claim_C5_counterexample :
    pa0 "xx" = none ∧
    find_subscription_leeches pd0 pa0 frame5bad = .ok (0, 2, []) ∧
    analyze_transactions pd0 pa0 frame5bad = "No price hikes found." :=
  ⟨rfl, rfl, rfl⟩

/-- Claim C5 as amended: a row whose `date` cell cannot be parsed always
aborts the whole invocation with the parse-failure exception — no row
is skipped and no partial result is produced; a row whose `amount` cell
cannot be parsed aborts the invocation exactly when some merchant
recurs in the input, the only case in which `.diff()` subtracts — when
no merchant recurs, the invocation succeeds with an empty result
despite the bad amount.  Failures surface as the `Error: `-prefixed
string of the caught exception, as in C4. -/
theorem claim_C5_bad_cell (pdate pamount : Cell → Option Int) (f : Frame)
    (di mi ai : Nat)
    (hdi : colIdx f.cols "date" = some di)
    (hmi : colIdx f.cols "merchant" = some mi)
    (hai : colIdx f.cols "amount" = some ai) :
    ((∃ r ∈ f.rows, pdate (getCell r di) = none) →
      ∃ c, find_subscription_leeches pdate pamount f = .error (.parseError c) ∧
        analyze_transactions pdate pamount f =
          "Error: " ++ (Err.parseError c).message) ∧
    ((∀ r ∈ f.rows, pdate (getCell r di) ≠ none) →
      (∃ r ∈ f.rows, pamount (getCell r ai) = none) →
      rawRecurs mi f.rows = true →
      ∃ c, find_subscription_leeches pdate pamount f = .error (.parseError c) ∧
        analyze_transactions pdate pamount f =
          "Error: " ++ (Err.parseError c).message) ∧
    ((∀ r ∈ f.rows, pdate (getCell r di) ≠ none) →
      rawRecurs mi f.rows = false →
      find_subscription_leeches pdate pamount f = .ok (di, ai, []) ∧
      analyze_transactions pdate pamount f = "No price hikes found.") := by
  have hdates : ∀ (hgood : ∀ r ∈ f.rows, pdate (getCell r di) ≠ none),
      ∃ dates, parseAll pdate (f.rows.map (fun r => getCell r di)) = .ok dates := by
    intro hgood
    apply parseAll_ok_of_forall
    intro c hc
    obtain ⟨r', hr', hce⟩ := List.mem_map.mp hc
    rw [← hce]
    exact hgood r' hr'
  refine ⟨?_, ?_, ?_⟩
  · rintro ⟨r, hr, hbad⟩
    obtain ⟨c, hc⟩ :=
      parseAll_error_of_mem (List.mem_map_of_mem (fun x => getCell x di) hr) hbad
    have hv : validated pdate pamount f = .error (.parseError c) := by
      unfold validated
      simp only [hdi, hc]
    exact ⟨c, find_subscription_leeches_error hv,
      analyze_transactions_error (find_subscription_leeches_error hv)⟩
  · rintro hgood ⟨r, hr, hbad⟩ hrec
    obtain ⟨dates, hds⟩ := hdates hgood
    obtain ⟨c, hc⟩ :=
      parseAll_error_of_mem (List.mem_map_of_mem (fun x => getCell x ai) hr) hbad
    have hv : validated pdate pamount f = .error (.parseError c) := by
      unfold validated
      simp only [hdi, hds, hmi, hai, hrec, hc]
    exact ⟨c, find_subscription_leeches_error hv,
      analyze_transactions_error (find_subscription_leeches_error hv)⟩
  · intro hgood hrec
    obtain ⟨dates, hds⟩ := hdates hgood
    have hv : validated pdate pamount f =
        .ok (di, ai, mkRecs mi f.rows dates (amountsOf pamount ai f.rows) 0) := by
      unfold validated
      simp only [hdi, hds, hmi, hai, hrec]
    have hfsl : find_subscription_leeches pdate pamount f = .ok (di, ai, []) := by
      unfold find_subscription_leeches
      simp only [hv]
      unfold engine
      rw [recurring_empty_of_rawRecurs_false hrec dates (amountsOf pamount ai f.rows)]
      rfl
    refine ⟨hfsl, ?_⟩
    unfold analyze_transactions
    rw [hfsl]
    simp

/-- A fixture whose single row has an unparseable `date` cell. -/
def frame5 : Frame := ⟨["date", "merchant", "amount"], [["x", "A", "10"]]⟩

theorem claim_C5_bad_cell_witness :
    ((∃ r ∈ frame5.rows, pd0 (getCell r 0) = none) →
      ∃ c, find_subscription_leeches pd0 pa0 frame5 = .error (.parseError c) ∧
        analyze_transactions pd0 pa0 frame5 =
          "Error: " ++ (Err.parseError c).message) ∧
    ((∀ r ∈ frame5.rows, pd0 (getCell r 0) ≠ none) →
      (∃ r ∈ frame5.rows, pa0 (getCell r 2) = none) →
      rawRecurs 1 frame5.rows = true →
      ∃ c, find_subscription_leeches pd0 pa0 frame5 = .error (.parseError c) ∧
        analyze_transactions pd0 pa0 frame5 =
          "Error: " ++ (Err.parseError c).message) ∧
    ((∀ r ∈ frame5.rows, pd0 (getCell r 0) ≠ none) →
      rawRecurs 1 frame5.rows = false →
      find_subscription_leeches pd0 pa0 frame5 = .ok (0, 2, []) ∧
      analyze_transactions pd0 pa0 frame5 = "No price hikes found.") :=
  claim_C5_bad_cell pd0 pa0 frame5 0 1 2 rfl rfl rfl

/-! ### Claim C7 -/

theorem cellsOut_length (di ai : Nat) (d a : Int) :
    ∀ (j : Nat) (cs : List Cell), (cellsOut di ai d a j cs).length = cs.length
  | _, [] => rfl
  | j, c :: rest => by
    simp only [cellsOut, List.length_cons]
    rw [cellsOut_length di ai d a (j + 1) rest]

theorem mem_out_raw {pdate pamount : Cell → Option Int} {f : Frame} {di ai : Nat}
    {out : List (Rec × PFloat)} {x : Rec × PFloat}
    (h : find_subscription_leeches pdate pamount f = .ok (di, ai, out))
    (hx : x ∈ out) : x.1.raw ∈ f.rows := by
  obtain ⟨rows, hv, hout, _⟩ := find_subscription_leeches_ok h
  rw [hout] at hx
  unfold engine at hx
  have h1 : x.1 ∈ recurringOf (sortedOf rows) :=
    fst_mem_of_mem_withPC (mem_hikes.mp hx).1
  have h2 : x.1 ∈ sortedOf rows := (recurringOf_sublist _).subset h1
  have h3 : x.1 ∈ rows := (sortedOf_perm rows).mem_iff.mp h2
  obtain ⟨_, _, mi, dates, amounts, _, _, _, hrows⟩ := validated_ok hv
  rw [hrows] at h3
  exact mem_mkRecs_raw h3

/-- A fixture with an extra column `note` beyond the required three. -/
def frame7 : Frame :=
  ⟨["date", "merchant", "amount", "note"],
   [["1", "A", "10", "x"], ["2", "A", "12", "y"]]⟩

/-- The single hike event the engine emits on `frame7`. -/
def out7 : List (Rec × PFloat) :=
  [(⟨["2", "A", "12", "y"], 1, 2, "A", 12⟩, PFloat.num 2)]

/-- Claim C7 counterexample: on an input with an extra column `note`,
the serialized record does not carry the fields `merchant`,
`previous_amount`, `new_amount`, `delta`, `occurred_at`: it carries the
input columns `date`, `merchant`, `amount` together with the extra
column `note` — which is therefore not ignored — plus the appended
`price_change`, and no `previous_amount` field exists at all. -/
theorem claim_C7_counterexample :
    find_subscription_leeches pd0 pa0 frame7 = .ok (0, 2, out7) ∧
    (toRecords frame7.cols 0 2 out7).map (fun q => q.map Prod.fst) =
      [["date", "merchant", "amount", "note", "price_change"]] ∧
    "note" ∈ ["date", "merchant", "amount", "note", "price_change"] ∧
    "previous_amount" ∉ ["date", "merchant", "amount", "note", "price_change"] :=
  ⟨rfl, by decide, by decide, by decide⟩

/-- Claim C7 as amended: every record in the serialized output carries
exactly the input table's columns — extra input columns included, not
ignored — followed by the appended `price_change` field; the fields
`previous_amount`, `new_amount`, `delta` and `occurred_at` of the
specification do not exist in the output. -/
theorem claim_C7_output_fields (pdate pamount : Cell → Option Int) (f : Frame)
    (di ai : Nat) (out : List (Rec × PFloat))
    (hrect : ∀ r ∈ f.rows, r.length = f.cols.length)
    (h : find_subscription_leeches pdate pamount f = .ok (di, ai, out)) :
    ∀ q ∈ toRecords f.cols di ai out,
      q.map Prod.fst = f.cols ++ ["price_change"] := by
  intro q hq
  unfold toRecords at hq
  obtain ⟨x, hx, hxq⟩ := List.mem_map.mp hq
  rw [← hxq]
  apply List.map_fst_zip
  unfold outCells
  have := hrect x.1.raw (mem_out_raw h hx)
  simp only [List.length_append, cellsOut_length, List.length_cons, List.length_nil, this]
  omega

/-- The one serialized record the engine emits on `frame7`. -/
def rec7 : List (String × JVal) :=
  (frame7.cols ++ ["price_change"]).zip
    (outCells 0 2 ((⟨["2", "A", "12", "y"], 1, 2, "A", 12⟩ : Rec), PFloat.num 2))

theorem claim_C7_output_fields_witness :
    rec7.map Prod.fst = frame7.cols ++ ["price_change"] :=
  claim_C7_output_fields pd0 pa0 frame7 0 2 out7 (by decide) rfl rec7 (by decide)

/-! ### Claim C9 -/

/-- The two records the engine derives from `frame9`. -/
def rec9a : Rec := ⟨["1", "A", "10"], 0, 1, "A", 10⟩

/-- The second record derived from `frame9`. -/
def rec9b : Rec := ⟨["2", "A", "12"], 1, 2, "A", 12⟩

/-- A fixture with one merchant charged 10 then 12. -/
def frame9 : Frame :=
  ⟨["date", "merchant", "amount"], [["1", "A", "10"], ["2", "A", "12"]]⟩

/-- Claim C9 counterexample: the first record of the merchant partition
does not carry an "absent" delta that can never be compared as a
number: its `price_change` cell holds the numeric column's NaN value,
and the hike filter applies the numeric comparison `> 0` to that very
value — the comparison evaluates (to `false`), and that outcome, not
absence, is what excludes the record. -/
theorem claim_C9_counterexample :
    withPC (recurringOf (sortedInput pd0 pa0 frame9)) =
      [(rec9a, PFloat.nan), (rec9b, PFloat.num 2)] ∧
    PFloat.gtZero PFloat.nan = false ∧
    hikes (recurringOf (sortedInput pd0 pa0 frame9)) = [(rec9b, PFloat.num 2)] :=
  ⟨rfl, rfl, rfl⟩

/-- Claim C9 as amended: for the first record of every merchant
partition of the recurring table, the diff stage assigns the NaN value
of the numeric `price_change` column — a null-like numeric value, not
an absent field — and the hike filter excludes the record because the
numeric comparison `NaN > 0` evaluates to `false`, not by absence. -/
theorem claim_C9_first_delta_nan (pdate pamount : Cell → Option Int) (f : Frame)
    (m : String) (h0 : Rec) (t : List Rec)
    (hp : partitionOf (recurringOf (sortedInput pdate pamount f)) m = h0 :: t) :
    (h0, PFloat.nan) ∈ withPC (recurringOf (sortedInput pdate pamount f)) ∧
    PFloat.gtZero PFloat.nan = false ∧
    (h0, PFloat.nan) ∉ hikes (recurringOf (sortedInput pdate pamount f)) := by
  refine ⟨head_partition_nan hp, rfl, ?_⟩
  intro hc
  have := (mem_hikes.mp hc).2
  simp [PFloat.gtZero] at this

theorem claim_C9_first_delta_nan_witness :
    (rec9a, PFloat.nan) ∈ withPC (recurringOf (sortedInput pd0 pa0 frame9)) ∧
    PFloat.gtZero PFloat.nan = false ∧
    (rec9a, PFloat.nan) ∉ hikes (recurringOf (sortedInput pd0 pa0 frame9)) :=
  claim_C9_first_delta_nan pd0 pa0 frame9 "A" rec9a [rec9b] rfl
